import Mathlib

/-!
Verification development for the Manta storage driver.

The driver resolves caller-supplied logical paths with `toSafeLocalPath`
(Node `path.posix.normalize`, a regex stripping leading `../` or `..\`
sequences, and `path.posix.join`), and implements each storage operation
as a chain of callback-style Manta client calls.

Paths are modelled as lists of characters.  The `path.posix` primitives
used by the driver (`normalize`, `join`, `dirname`) are embedded
following Node's segment-scanning semantics.  Each driver operation is
modelled as a function from the backend's responses to the sequence of
backend calls issued and the callback outcome(s) observed by the caller.
-/

namespace MantaDriver

/-- The two-character traversal segment `..`. -/
def dd : List Char := ['.', '.']

/-- Split a character list at every slash, keeping empty pieces, the way
`path.posix` scans a path into segments. -/
def splitSlash : List Char → List (List Char)
  | [] => [[]]
  | c :: cs =>
    if c = '/' then [] :: splitSlash cs
    else
      match splitSlash cs with
      | [] => [[c]]
      | p :: ps => (c :: p) :: ps

/-- Join segments with slashes (left inverse of `splitSlash`). -/
def joinSegs : List (List Char) → List Char
  | [] => []
  | [s] => s
  | s :: rest => s ++ '/' :: joinSegs rest

/-- One step of Node's `normalizeString` segment processing: empty and
`.` segments are dropped; `..` pops the previous segment unless the
output is empty or already ends in `..`, in which case it is kept only
when `allow` (set for relative paths) holds; other segments are kept. -/
def normStep (allow : Bool) (acc : List (List Char)) (seg : List Char) :
    List (List Char) :=
  if seg = [] ∨ seg = ['.'] then acc
  else if seg = dd then
    match acc with
    | [] => if allow then [dd] else []
    | top :: acc2 => if top = dd then (if allow then dd :: acc else acc) else acc2
  else seg :: acc

/-- Node's `normalizeString` over a list of segments; the accumulator is
kept reversed. -/
def normSegs (allow : Bool) : List (List Char) → List (List Char) → List (List Char)
  | acc, [] => acc.reverse
  | acc, seg :: rest => normSegs allow (normStep allow acc seg) rest

/-- Reassemble the normalized segments the way `path.posix.normalize`
does: restore a leading slash for absolute paths and a trailing slash
when the input had one, and map an empty result to `.`, `./` or `/`. -/
def rebuild (isAbs hasTrail : Bool) (segs : List (List Char)) : List Char :=
  if joinSegs segs = [] then
    (if isAbs then ['/'] else if hasTrail then ['.', '/'] else ['.'])
  else
    (if isAbs then ['/'] else []) ++ joinSegs segs ++ (if hasTrail then ['/'] else [])

/-- `path.posix.normalize`. -/
def posixNormalize (cs : List Char) : List Char :=
  if cs = [] then ['.']
  else
    rebuild (decide (cs.head? = some '/')) (decide (cs.getLast? = some '/'))
      (normSegs (!(decide (cs.head? = some '/'))) [] (splitSlash cs))

/-- `path.posix.join`: drop empty arguments, join the rest with slashes
and normalize; with no nonempty argument the result is `.`. -/
def posixJoin (parts : List (List Char)) : List Char :=
  if parts.filter (fun p => !p.isEmpty) = [] then ['.']
  else posixNormalize (joinSegs (parts.filter (fun p => !p.isEmpty)))

/-- The driver's regex `^(\.\.[\/\\])+`: repeatedly strip a leading
`../` or `..\` unit. -/
def stripLeadingDotDot : List Char → List Char
  | [] => []
  | [c] => [c]
  | [c1, c2] => [c1, c2]
  | c1 :: c2 :: c3 :: t =>
    if c1 = '.' ∧ c2 = '.' ∧ (c3 = '/' ∨ c3 = '\\')
    then stripLeadingDotDot t
    else c1 :: c2 :: c3 :: t

/-- `path.posix.dirname`: drop trailing slashes, then the last segment,
with Node's special cases for root and for no remaining slash. -/
def posixDirname (cs : List Char) : List Char :=
  if cs = [] then ['.']
  else
    let hasRoot : Bool := cs.head? == some '/'
    let r2 := ((cs.reverse.dropWhile (fun c => c == '/')).dropWhile (fun c => !(c == '/')))
    let d := (r2.drop 1).reverse
    if d = [] then (if hasRoot then ['/'] else ['.'])
    else if hasRoot ∧ d = ['/'] then ['/', '/']
    else d

/-- Tenant identity, as passed to every driver operation. -/
structure User where
  account_id : List Char
  app_id : List Char
deriving DecidableEq

/-- The driver's `toSafeLocalPath`: normalize the logical path, strip
every leading `../` / `..\` unit, and join below
`basePath/account_id/app_id`. -/
def toSafeLocalPath (basePath : List Char) (user : User) (fileName : List Char) :
    List Char :=
  posixJoin [basePath, user.account_id, user.app_id,
    stripLeadingDotDot (posixNormalize fileName)]

/-- Boolean test for `pre` being a lexical initial run of `s`. -/
def hasPre : List Char → List Char → Bool
  | [], _ => true
  | _ :: _, [] => false
  | a :: as, b :: bs => a == b && hasPre as bs

/-- A wellformed path segment: nonempty, not `.` or `..`, slash-free. -/
def cleanSeg (s : List Char) : Prop :=
  s ≠ [] ∧ s ≠ ['.'] ∧ s ≠ dd ∧ '/' ∉ s

instance (s : List Char) : Decidable (cleanSeg s) := by
  unfold cleanSeg; infer_instance

/-- An error surfaced by the Manta client, carrying its `code`. -/
structure MantaError where
  code : List Char
deriving DecidableEq

/-- A directory entry as reported by the Manta client (`ls` events and
the synthetic entries the driver builds itself). -/
structure MantaEntry where
  name : List Char
  type : List Char
  size : Option Nat
deriving DecidableEq

/-- The Dropbox-form entry returned to callers. -/
structure DropboxEntry where
  name : List Char
  tag : List Char
  size : Option Nat
deriving DecidableEq

/-- The driver's `getEntryDetails`: `object` maps to tag `file`,
anything else to tag `folder`; name and size are copied. -/
def getEntryDetails (e : MantaEntry) : DropboxEntry :=
  ⟨e.name, if e.type = "object".data then "file".data else "folder".data, e.size⟩

/-- An opaque byte-stream handle handed back by the Manta client. -/
structure ByteStream where
  id : Nat
deriving DecidableEq

/-- A Manta client call issued by the driver, with its arguments. -/
inductive MantaCall where
  | mkdirp (p : List Char)
  | ls (p : List Char)
  | get (p : List Char)
  | ln (src dst : List Char)
  | unlink (p : List Char)
  | info (p : List Char)
  | createUpload (p : List Char) (account : List Char)
deriving DecidableEq

/-- Final callback outcome of an operation that reports an entry. -/
inductive OpOutcome where
  | failure (e : MantaError)
  | success (entry : DropboxEntry)
deriving DecidableEq

/-- Backend responses for the three steps of `moveObject`. -/
structure MoveBackend where
  mkdirpRes : Except MantaError Unit
  lnRes : Except MantaError Unit
  unlinkRes : Except MantaError Unit

/-- The driver's `moveObject`: resolve both paths, `mkdirp` the
destination's parent, `ln` source to destination, then `unlink` the
source; the first failing step reports its error via the callback and
stops the chain.  Returns the list of client calls issued and the
callback outcome. -/
def moveObject (basePath : List Char) (user : User) (filename newFilename : List Char)
    (b : MoveBackend) : List MantaCall × OpOutcome :=
  let filePath := toSafeLocalPath basePath user filename
  let newFilePath := toSafeLocalPath basePath user newFilename
  match b.mkdirpRes with
  | .error e => ([.mkdirp (posixDirname newFilePath)], .failure e)
  | .ok _ =>
    match b.lnRes with
    | .error e =>
      ([.mkdirp (posixDirname newFilePath), .ln filePath newFilePath], .failure e)
    | .ok _ =>
      match b.unlinkRes with
      | .error e =>
        ([.mkdirp (posixDirname newFilePath), .ln filePath newFilePath,
          .unlink filePath], .failure e)
      | .ok _ =>
        ([.mkdirp (posixDirname newFilePath), .ln filePath newFilePath,
          .unlink filePath],
         .success (getEntryDetails ⟨newFilename, "object".data, none⟩))

/-- The `info` result used by `deleteObject`, with its `extension`. -/
structure MantaInfo where
  extension : List Char
deriving DecidableEq

/-- Backend responses for the two steps of `deleteObject`. -/
structure DeleteBackend where
  infoRes : Except MantaError MantaInfo
  unlinkRes : Except MantaError Unit

/-- The driver's `deleteObject`: `info` on the resolved path first (its
error propagates and stops the chain), then build the entry from the
stat's `extension` and the caller-supplied name, then `unlink`. -/
def deleteObject (basePath : List Char) (user : User) (filename : List Char)
    (b : DeleteBackend) : List MantaCall × OpOutcome :=
  let filePath := toSafeLocalPath basePath user filename
  match b.infoRes with
  | .error e => ([.info filePath], .failure e)
  | .ok inf =>
    let entry : MantaEntry :=
      ⟨filename, if inf.extension = "directory".data then "directory".data
                 else "object".data, none⟩
    match b.unlinkRes with
    | .error e => ([.info filePath, .unlink filePath], .failure e)
    | .ok _ => ([.info filePath, .unlink filePath], .success (getEntryDetails entry))

/-- An event emitted by the `ls` result stream. -/
inductive LsEvent where
  | object (e : MantaEntry)
  | directory (e : MantaEntry)
deriving DecidableEq

/-- The entry queued for an `ls` stream event. -/
def lsEventEntry : LsEvent → DropboxEntry
  | .object e => getEntryDetails e
  | .directory e => getEntryDetails e

/-- Behaviour of the backend for one `ls` call: either the call itself
fails (no stream), or a stream yields events and then either ends
cleanly (`streamErr = none`) or raises an error. -/
inductive LsBackend where
  | failure (e : MantaError)
  | events (evs : List LsEvent) (streamErr : Option MantaError)
deriving DecidableEq

/-- Callback outcome of `listDirectory`. -/
inductive LsOutcome where
  | failure (e : MantaError)
  | success (entries : List DropboxEntry)
deriving DecidableEq

/-- The driver's `listDirectory`: on an `ls` error whose code is
`NOTFOUND`, or whenever the logical path is the empty tenant root, the
callback receives an empty listing; any other `ls` error is passed to
the callback.  Otherwise entries are collected from the stream; a
stream error discards them and reports the error, a clean end reports
the collected entries.  The outcome models the effective callback
invocation. -/
def listDirectory (basePath : List Char) (user : User) (dirpath : List Char)
    (b : LsBackend) : List MantaCall × LsOutcome :=
  let fullPath := toSafeLocalPath basePath user dirpath
  ([.ls fullPath],
   match b with
   | .failure e =>
     if e.code = "NOTFOUND".data ∨ dirpath = [] then .success []
     else .failure e
   | .events evs streamErr =>
     match streamErr with
     | some e => .failure e
     | none => .success (evs.map lsEventEntry))

/-- One invocation of the `getObject` callback. -/
inductive GetCb where
  | failure (e : MantaError)
  | nullResult
  | streamResult (s : ByteStream)
  | undefinedResult
deriving DecidableEq

/-- The driver's `getObject`: on a client error the error branch fires
the callback (with a null result for `ResourceNotFound`, else with the
error), and then control falls through to the unconditional
`callback(null, stream)` with `stream` undefined; on success the
callback fires once with the stream.  Returns the client call issued
and the full list of callback invocations. -/
def getObject (basePath : List Char) (user : User) (filename : List Char)
    (res : Except MantaError ByteStream) : List MantaCall × List GetCb :=
  let filePath := toSafeLocalPath basePath user filename
  ([.get filePath],
   match res with
   | .error e =>
     (if e.code = "ResourceNotFound".data then [GetCb.nullResult]
      else [GetCb.failure e]) ++ [GetCb.undefinedResult]
   | .ok s => [GetCb.streamResult s])

/-- Callback outcome of `startMultipartUpload`. -/
inductive UploadOutcome where
  | failure (e : MantaError)
  | success (uploadId : List Char)
deriving DecidableEq

/-- The driver's `startMultipartUpload`: `createUpload` on the fixed
staging path `join(basePath, "temp0000")` with the configured account
(`params.user`), propagating the result to the callback. -/
def startMultipartUpload (basePath paramsUser : List Char) (user : User)
    (res : Except MantaError (List Char)) : MantaCall × UploadOutcome :=
  let tmpPath := posixJoin [basePath, "temp0000".data]
  (.createUpload tmpPath paramsUser,
   match res with
   | .error e => .failure e
   | .ok uploadId => .success uploadId)

theorem splitSlash_ne_nil (s : List Char) : splitSlash s ≠ [] := by
  cases s with
  | nil => simp [splitSlash]
  | cons c cs =>
    simp only [splitSlash]
    split
    · simp
    · split <;> simp

theorem splitSlash_cons_of_slash (cs : List Char) :
    splitSlash ('/' :: cs) = [] :: splitSlash cs := by
  simp [splitSlash]

theorem splitSlash_cons_of_ne (c : Char) (cs p : List Char) (ps : List (List Char))
    (hc : c ≠ '/') (h : splitSlash cs = p :: ps) :
    splitSlash (c :: cs) = (c :: p) :: ps := by
  simp only [splitSlash, if_neg hc, h]

theorem exists_splitSlash (cs : List Char) : ∃ p ps, splitSlash cs = p :: ps := by
  rcases h : splitSlash cs with _ | ⟨p, ps⟩
  · exact absurd h (splitSlash_ne_nil cs)
  · exact ⟨p, ps, rfl⟩

theorem no_slash_of_mem_splitSlash :
    ∀ (s x : List Char), x ∈ splitSlash s → '/' ∉ x := by
  intro s
  induction s with
  | nil =>
    intro x hx
    simp [splitSlash] at hx
    simp [hx]
  | cons c cs ih =>
    intro x hx
    by_cases hc : c = '/'
    · subst hc
      rw [splitSlash_cons_of_slash] at hx
      simp only [List.mem_cons] at hx
      rcases hx with h | h
      · simp [h]
      · exact ih x h
    · obtain ⟨p, ps, hsp⟩ := exists_splitSlash cs
      rw [splitSlash_cons_of_ne c cs p ps hc hsp] at hx
      simp only [List.mem_cons] at hx
      rcases hx with h | h
      · subst h
        intro hmem
        simp only [List.mem_cons] at hmem
        rcases hmem with h1 | h1
        · exact hc h1.symm
        · exact ih p (by simp [hsp]) h1
      · exact ih x (by rw [hsp]; exact List.mem_cons_of_mem _ h)

theorem joinSegs_cons_cons (s t : List Char) (rest : List (List Char)) :
    joinSegs (s :: t :: rest) = s ++ '/' :: joinSegs (t :: rest) := by
  simp [joinSegs]

theorem joinSegs_splitSlash : ∀ s : List Char, joinSegs (splitSlash s) = s := by
  intro s
  induction s with
  | nil => simp [splitSlash, joinSegs]
  | cons c cs ih =>
    obtain ⟨p, ps, hsp⟩ := exists_splitSlash cs
    rw [hsp] at ih
    by_cases hc : c = '/'
    · subst hc
      rw [splitSlash_cons_of_slash, hsp, joinSegs_cons_cons]
      simp [ih]
    · rw [splitSlash_cons_of_ne c cs p ps hc hsp]
      rcases ps with _ | ⟨q, qs⟩
      · simp only [joinSegs] at ih ⊢
        simp [ih]
      · rw [joinSegs_cons_cons] at ih ⊢
        rw [List.cons_append, ih]

theorem splitSlash_append_slash :
    ∀ a b : List Char, splitSlash (a ++ '/' :: b) = splitSlash a ++ splitSlash b := by
  intro a b
  induction a with
  | nil => simp [splitSlash_cons_of_slash, splitSlash]
  | cons c cs ih =>
    by_cases hc : c = '/'
    · subst hc
      rw [List.cons_append, splitSlash_cons_of_slash, splitSlash_cons_of_slash, ih]
      simp
    · obtain ⟨p, ps, hsp⟩ := exists_splitSlash cs
      have h2 : splitSlash (cs ++ '/' :: b) = p :: (ps ++ splitSlash b) := by
        rw [ih, hsp]; simp
      rw [List.cons_append, splitSlash_cons_of_ne c _ p (ps ++ splitSlash b) hc h2,
        splitSlash_cons_of_ne c cs p ps hc hsp]
      simp

theorem splitSlash_of_no_slash :
    ∀ s : List Char, '/' ∉ s → splitSlash s = [s] := by
  intro s
  induction s with
  | nil => simp [splitSlash]
  | cons c cs ih =>
    intro h
    have hc : c ≠ '/' := fun hh => h (by simp [hh])
    have ihh := ih (fun hh => h (List.mem_cons_of_mem _ hh))
    rw [splitSlash_cons_of_ne c cs cs [] hc ihh]

theorem splitSlash_joinSegs :
    ∀ S : List (List Char), S ≠ [] → (∀ x ∈ S, '/' ∉ x) →
      splitSlash (joinSegs S) = S := by
  intro S
  induction S with
  | nil => intro h; exact absurd rfl h
  | cons x rest ih =>
    intro _ hns
    rcases rest with _ | ⟨y, ys⟩
    · simpa [joinSegs] using splitSlash_of_no_slash x (hns x (by simp))
    · rw [joinSegs_cons_cons, splitSlash_append_slash,
        splitSlash_of_no_slash x (hns x (by simp)),
        ih (by simp) (fun z hz => hns z (List.mem_cons_of_mem _ hz))]
      simp

theorem joinSegs_append :
    ∀ S T : List (List Char), S ≠ [] → T ≠ [] →
      joinSegs (S ++ T) = joinSegs S ++ '/' :: joinSegs T := by
  intro S
  induction S with
  | nil => intro T hS _; exact absurd rfl hS
  | cons x rest ih =>
    intro T _ hT
    rcases rest with _ | ⟨y, ys⟩
    · rcases T with _ | ⟨t, ts⟩
      · exact absurd rfl hT
      · simp [joinSegs_cons_cons, joinSegs]
    · have ihh := ih T (by simp) hT
      have e1 : joinSegs ((x :: y :: ys) ++ T) = x ++ '/' :: joinSegs ((y :: ys) ++ T) :=
        joinSegs_cons_cons x y (ys ++ T)
      rw [e1, ihh, joinSegs_cons_cons x y ys]
      simp

theorem normSegs_nil (allow : Bool) (acc : List (List Char)) :
    normSegs allow acc [] = acc.reverse := rfl

theorem normSegs_cons (allow : Bool) (acc : List (List Char)) (seg : List Char)
    (rest : List (List Char)) :
    normSegs allow acc (seg :: rest) = normSegs allow (normStep allow acc seg) rest := rfl

theorem normStep_skip (allow : Bool) (acc : List (List Char)) (seg : List Char)
    (h : seg = [] ∨ seg = ['.']) : normStep allow acc seg = acc := by
  simp [normStep, h]

theorem normStep_push (allow : Bool) (acc : List (List Char)) (seg : List Char)
    (h1 : seg ≠ []) (h2 : seg ≠ ['.']) (h3 : seg ≠ dd) :
    normStep allow acc seg = seg :: acc := by
  simp [normStep, h1, h2, h3]

theorem normStep_dd_nil (allow : Bool) :
    normStep allow [] dd = (if allow then [dd] else []) := by
  have h1 : ¬(dd = [] ∨ dd = ['.']) := by decide
  simp [normStep, h1]

theorem normStep_dd_cons (allow : Bool) (t : List Char) (acc2 : List (List Char))
    (ht : t ≠ dd) : normStep allow (t :: acc2) dd = acc2 := by
  have h1 : ¬(dd = [] ∨ dd = ['.']) := by decide
  simp [normStep, h1, ht]

theorem normStep_dd_dd (allow : Bool) (acc2 : List (List Char)) :
    normStep allow (dd :: acc2) dd =
      (if allow then dd :: dd :: acc2 else dd :: acc2) := by
  have h1 : ¬(dd = [] ∨ dd = ['.']) := by decide
  simp [normStep, h1]

/-- Processing a run of kept segments pushes them onto the accumulator. -/
theorem normSegs_push_clean (allow : Bool) :
    ∀ (l rest acc : List (List Char)),
      (∀ x ∈ l, x ≠ [] ∧ x ≠ ['.'] ∧ x ≠ dd) →
      normSegs allow acc (l ++ rest) = normSegs allow (l.reverse ++ acc) rest := by
  intro l
  induction l with
  | nil => intro rest acc _; simp
  | cons seg l2 ih =>
    intro rest acc hcl
    have h := hcl seg (by simp)
    rw [List.cons_append, normSegs_cons,
      normStep_push allow acc seg h.1 h.2.1 h.2.2,
      ih rest (seg :: acc) (fun x hx => hcl x (List.mem_cons_of_mem _ hx))]
    simp

/-- The Boolean filter for segments that survive normalization when no
`..` is present. -/
def keepSeg (s : List Char) : Bool := !(decide (s = [] ∨ s = ['.']))

/-- Without any `..` segment, normalization just filters out empty and
`.` segments. -/
theorem normSegs_no_dd (allow : Bool) :
    ∀ (segs acc : List (List Char)), dd ∉ segs →
      normSegs allow acc segs = acc.reverse ++ segs.filter keepSeg := by
  intro segs
  induction segs with
  | nil => intro acc _; rw [normSegs_nil]; simp
  | cons seg rest ih =>
    intro acc hdd
    have hne : seg ≠ dd := by intro h; exact hdd (by simp [h])
    have hddr : dd ∉ rest := fun h => hdd (List.mem_cons_of_mem _ h)
    by_cases hsk : seg = [] ∨ seg = ['.']
    · rw [normSegs_cons, normStep_skip allow acc seg hsk, ih acc hddr]
      have hks : keepSeg seg = false := by simp [keepSeg, hsk]
      simp [List.filter_cons, hks]
    · push_neg at hsk
      rw [normSegs_cons, normStep_push allow acc seg hsk.1 hsk.2 hne, ih _ hddr]
      have hks : keepSeg seg = true := by simp [keepSeg, hsk.1, hsk.2]
      simp [List.filter_cons, hks]

/-- Shape of the normalized segment list: a block of leading `..`
segments (none for absolute paths) followed by clean segments. -/
theorem normSegs_shape (allow : Bool) :
    ∀ (segs g : List (List Char)) (k : Nat),
      (∀ x ∈ g, cleanSeg x) →
      (allow = false → k = 0) →
      (∀ x ∈ segs, '/' ∉ x) →
      ∃ k2 h, normSegs allow (g ++ List.replicate k dd) segs =
          List.replicate k2 dd ++ h ∧ (∀ x ∈ h, cleanSeg x) ∧
          (allow = false → k2 = 0) := by
  intro segs
  induction segs with
  | nil =>
    intro g k hg hk _
    refine ⟨k, g.reverse, ?_, ?_, hk⟩
    · rw [normSegs_nil]; simp
    · intro x hx; exact hg x (by simpa using hx)
  | cons seg rest ih =>
    intro g k hg hk hns
    have hnsr : ∀ x ∈ rest, '/' ∉ x := fun x hx => hns x (List.mem_cons_of_mem _ hx)
    by_cases hsk : seg = [] ∨ seg = ['.']
    · rw [normSegs_cons, normStep_skip allow _ seg hsk]
      exact ih g k hg hk hnsr
    · push_neg at hsk
      by_cases hdd2 : seg = dd
      · subst hdd2
        rcases g with _ | ⟨t, g2⟩
        · rcases k with _ | k2
          · rw [normSegs_cons]
            simp only [List.nil_append, List.replicate_zero]
            rw [normStep_dd_nil allow]
            by_cases hal : allow = true
            · rw [if_pos hal]
              have : [dd] = ([] : List (List Char)) ++ List.replicate 1 dd := by simp
              rw [this]
              exact ih [] 1 (by simp) (fun h => absurd hal (by simp [h])) hnsr
            · rw [if_neg hal]
              have : ([] : List (List Char)) = ([] : List (List Char)) ++ List.replicate 0 dd := by
                simp
              rw [this]
              exact ih [] 0 (by simp) (fun _ => rfl) hnsr
          · rw [normSegs_cons]
            have hacc : ([] : List (List Char)) ++ List.replicate (k2 + 1) dd
                = dd :: List.replicate k2 dd := by simp [List.replicate_succ]
            rw [hacc, normStep_dd_dd allow]
            by_cases hal : allow = true
            · rw [if_pos hal]
              have : dd :: dd :: List.replicate k2 dd
                  = ([] : List (List Char)) ++ List.replicate (k2 + 2) dd := by
                simp [List.replicate_succ]
              rw [this]
              exact ih [] (k2 + 2) (by simp) (fun h => absurd hal (by simp [h])) hnsr
            · have hal2 : allow = false := by
                rcases allow with _ | _
                · rfl
                · exact absurd rfl hal
              exact absurd (hk hal2) (by simp)
        · rw [normSegs_cons]
          have ht : t ≠ dd := (hg t (by simp)).2.2.1
          have hacc : (t :: g2) ++ List.replicate k dd = t :: (g2 ++ List.replicate k dd) := by
            simp
          rw [hacc, normStep_dd_cons allow t _ ht]
          exact ih g2 k (fun x hx => hg x (List.mem_cons_of_mem _ hx)) hk hnsr
      · rw [normSegs_cons, normStep_push allow _ seg hsk.1 hsk.2 hdd2]
        have hcs : cleanSeg seg := ⟨hsk.1, hsk.2, hdd2, hns seg (by simp)⟩
        have : seg :: (g ++ List.replicate k dd)
            = (seg :: g) ++ List.replicate k dd := by simp
        rw [this]
        refine ih (seg :: g) k ?_ hk hnsr
        intro x hx
        simp only [List.mem_cons] at hx
        rcases hx with h | h
        · subst h; exact hcs
        · exact hg x h

/-- All `..` segments of `s`, if any, form a leading block. -/
def ddOnlyLeading (s : List Char) : Prop :=
  ∃ k rest, splitSlash s = List.replicate k dd ++ rest ∧ dd ∉ rest

theorem strip_cons3 (c1 c2 c3 : Char) (t : List Char) :
    stripLeadingDotDot (c1 :: c2 :: c3 :: t) =
      if c1 = '.' ∧ c2 = '.' ∧ (c3 = '/' ∨ c3 = '\\') then stripLeadingDotDot t
      else c1 :: c2 :: c3 :: t := rfl

/-- `rebuild` of a `..`-block-then-clean segment list has all its `..`
segments leading. -/
theorem rebuild_ddOnlyLeading (isAbs hasTrail : Bool) (segs : List (List Char))
    (k : Nat) (h : List (List Char)) (hsegs : segs = List.replicate k dd ++ h)
    (hh : ∀ x ∈ h, cleanSeg x) (habs : isAbs = true → k = 0) :
    ddOnlyLeading (rebuild isAbs hasTrail segs) := by
  unfold rebuild
  by_cases hb : joinSegs segs = []
  · rw [if_pos hb]
    rcases isAbs with _ | _
    · rcases hasTrail with _ | _
      · refine ⟨0, [['.']], ?_, by decide⟩
        simp only [Bool.false_eq_true, if_false]
        decide
      · refine ⟨0, [['.'], []], ?_, by decide⟩
        simp only [Bool.false_eq_true, if_false, if_true]
        decide
    · refine ⟨0, [[], []], ?_, by decide⟩
      simp only [if_true]
      decide
  · rw [if_neg hb]
    have hsne : segs ≠ [] := by
      intro hs
      exact hb (by simp [hs, joinSegs])
    have hnsl : ∀ x ∈ segs, '/' ∉ x := by
      intro x hx
      rw [hsegs] at hx
      rcases List.mem_append.mp hx with h1 | h1
      · have := List.eq_of_mem_replicate h1
        simp [this, dd]
      · exact (hh x h1).2.2.2
    have hcore : splitSlash (joinSegs segs) = segs := splitSlash_joinSegs segs hsne hnsl
    have htrail : splitSlash (joinSegs segs ++ ['/']) = segs ++ [[]] := by
      have e : joinSegs segs ++ ['/'] = joinSegs segs ++ '/' :: ([] : List Char) := rfl
      rw [e, splitSlash_append_slash, hcore]
      simp [splitSlash]
    have hddia : ∀ x ∈ h, x ≠ dd := fun x hx => (hh x hx).2.2.1
    rcases isAbs with _ | _
    · rcases hasTrail with _ | _
      · refine ⟨k, h, ?_, ?_⟩
        · simp only [Bool.false_eq_true, if_false, List.nil_append, List.append_nil]
          rw [hcore, hsegs]
        · intro hmem; exact hddia dd hmem rfl
      · refine ⟨k, h ++ [[]], ?_, ?_⟩
        · simp only [Bool.false_eq_true, if_false, if_true, List.nil_append]
          rw [htrail, hsegs]
          simp
        · intro hmem
          rcases List.mem_append.mp hmem with h1 | h1
          · exact hddia dd h1 rfl
          · simp [dd] at h1
    · have hk0 : k = 0 := habs rfl
      subst hk0
      simp only [List.replicate_zero, List.nil_append] at hsegs
      subst hsegs
      rcases hasTrail with _ | _
      · refine ⟨0, [] :: segs, ?_, ?_⟩
        · simp only [if_true, Bool.false_eq_true, if_false, List.append_nil,
            List.replicate_zero, List.nil_append]
          have e : (['/'] ++ joinSegs segs : List Char) = '/' :: joinSegs segs := by simp
          rw [e, splitSlash_cons_of_slash, hcore]
        · intro hmem
          simp only [List.mem_cons] at hmem
          rcases hmem with h1 | h1
          · simp [dd] at h1
          · exact hddia dd h1 rfl
      · refine ⟨0, [] :: (segs ++ [[]]), ?_, ?_⟩
        · simp only [if_true, List.replicate_zero, List.nil_append]
          have e : (['/'] ++ joinSegs segs ++ ['/'] : List Char)
              = '/' :: (joinSegs segs ++ ['/']) := by simp
          rw [e, splitSlash_cons_of_slash, htrail]
        · intro hmem
          simp only [List.mem_cons] at hmem
          rcases hmem with h1 | h1
          · simp [dd] at h1
          · rcases List.mem_append.mp h1 with h2 | h2
            · exact hddia dd h2 rfl
            · simp [dd] at h2

/-- The normalized form of any path has all `..` segments leading. -/
theorem posixNormalize_ddOnlyLeading (p : List Char) :
    ddOnlyLeading (posixNormalize p) := by
  by_cases hp : p = []
  · subst hp
    exact ⟨0, [['.']], by decide, by decide⟩
  · unfold posixNormalize
    rw [if_neg hp]
    obtain ⟨k2, h, heq, hh, hk⟩ :=
      normSegs_shape (!(decide (p.head? = some '/'))) (splitSlash p) [] 0
        (by simp) (by simp) (no_slash_of_mem_splitSlash p)
    simp only [List.nil_append, List.replicate_zero] at heq
    exact rebuild_ddOnlyLeading _ _ _ k2 h heq hh
      (fun habs => hk (by simp [habs]))

/-- Where the strip loop stops, the string is `..` itself or has no
`..` segment at all. -/
theorem strip_stop_case (s : List Char) (hd : ddOnlyLeading s)
    (hne : ∀ t : List Char, s ≠ '.' :: '.' :: '/' :: t) :
    s = dd ∨ dd ∉ splitSlash s := by
  obtain ⟨k, rest, hsp, hnr⟩ := hd
  rcases k with _ | k2
  · right
    rw [hsp]
    simpa using hnr
  · left
    have hsp2 : splitSlash s = dd :: (List.replicate k2 dd ++ rest) := by
      rw [hsp, List.replicate_succ]
      simp
    have hs : s = joinSegs (splitSlash s) := (joinSegs_splitSlash s).symm
    rcases h2 : List.replicate k2 dd ++ rest with _ | ⟨x, xs⟩
    · rw [hsp2, h2] at hs
      simpa [joinSegs] using hs
    · rw [hsp2, h2, joinSegs_cons_cons] at hs
      exact absurd hs (by
        have := hne (joinSegs (x :: xs))
        simpa [dd] using this)

/-- Stripping leading traversal units from a string whose `..` segments
are all leading yields `..` itself or a string with no `..` segment. -/
theorem stripLeadingDotDot_cases :
    ∀ (n : Nat) (s : List Char), s.length ≤ n → ddOnlyLeading s →
      stripLeadingDotDot s = dd ∨ dd ∉ splitSlash (stripLeadingDotDot s) := by
  intro n
  induction n with
  | zero =>
    intro s hlen hd
    have hnil : s = [] := by
      cases s with
      | nil => rfl
      | cons a as => simp at hlen
    subst hnil
    right
    decide
  | succ n2 ih =>
    intro s hlen hd
    rcases s with _ | ⟨c1, s1⟩
    · right; decide
    rcases s1 with _ | ⟨c2, s2⟩
    · rw [show stripLeadingDotDot [c1] = [c1] from rfl]
      exact strip_stop_case [c1] hd (by intro t h; simp at h)
    rcases s2 with _ | ⟨c3, t⟩
    · rw [show stripLeadingDotDot [c1, c2] = [c1, c2] from rfl]
      exact strip_stop_case [c1, c2] hd (by intro t h; simp at h)
    by_cases hmatch : c1 = '.' ∧ c2 = '.' ∧ (c3 = '/' ∨ c3 = '\\')
    · rw [strip_cons3, if_pos hmatch]
      obtain ⟨e1, e2, e3⟩ := hmatch
      subst e1; subst e2
      have hlt : t.length ≤ n2 := by
        simp only [List.length_cons] at hlen
        omega
      obtain ⟨k, rest, hsp, hnr⟩ := hd
      rcases e3 with e3 | e3
      · subst e3
        have hsps : splitSlash ('.' :: '.' :: '/' :: t) = dd :: splitSlash t := by
          obtain ⟨p, ps, hpp⟩ := exists_splitSlash ('/' :: t)
          rw [splitSlash_cons_of_slash] at hpp
          rw [splitSlash_cons_of_ne '.' _ _ _ (by decide)
              (splitSlash_cons_of_ne '.' _ _ _ (by decide) (splitSlash_cons_of_slash t))]
          simp [dd]
        rw [hsps] at hsp
        rcases k with _ | k2
        · have hr : rest = dd :: splitSlash t := by simpa using hsp.symm
          exact absurd (by simp [hr] : dd ∈ rest) hnr
        · simp only [List.replicate_succ, List.cons_append, List.cons.injEq] at hsp
          exact ih t hlt ⟨k2, rest, hsp.2, hnr⟩
      · subst e3
        obtain ⟨p, ps, hpt⟩ := exists_splitSlash t
        have hsps : splitSlash ('.' :: '.' :: '\\' :: t)
            = ('.' :: '.' :: '\\' :: p) :: ps := by
          exact splitSlash_cons_of_ne '.' _ _ _ (by decide)
            (splitSlash_cons_of_ne '.' _ _ _ (by decide)
              (splitSlash_cons_of_ne '\\' _ _ _ (by decide) hpt))
        rw [hsps] at hsp
        have hbig : ('.' :: '.' :: '\\' :: p) ≠ dd := by simp [dd]
        have hk0 : k = 0 := by
          rcases k with _ | k2
          · rfl
          · simp only [List.replicate_succ, List.cons_append, List.cons.injEq] at hsp
            exact absurd hsp.1 hbig
        subst hk0
        simp only [List.replicate_zero, List.nil_append] at hsp
        have hps : dd ∉ ps := by
          intro hmem
          exact hnr (by rw [← hsp]; exact List.mem_cons_of_mem _ hmem)
        by_cases hpd : p = dd
        · subst hpd
          exact ih t hlt ⟨1, ps, by simpa using hpt, hps⟩
        · refine ih t hlt ⟨0, p :: ps, by simpa using hpt, ?_⟩
          intro hmem
          simp only [List.mem_cons] at hmem
          rcases hmem with h1 | h1
          · exact hpd h1.symm
          · exact hps h1
    · rw [strip_cons3, if_neg hmatch]
      refine strip_stop_case _ hd ?_
      intro t2 h
      simp only [List.cons.injEq] at h
      exact hmatch ⟨h.1, h.2.1, Or.inl h.2.2.1⟩

/-- The sanitized logical path is `..` itself or contains no `..`
segment. -/
theorem safe_cases (p : List Char) :
    stripLeadingDotDot (posixNormalize p) = dd ∨
      dd ∉ splitSlash (stripLeadingDotDot (posixNormalize p)) :=
  stripLeadingDotDot_cases (posixNormalize p).length _ le_rfl
    (posixNormalize_ddOnlyLeading p)

theorem isEmpty_false_of_ne_nil (l : List Char) (h : l ≠ []) : l.isEmpty = false := by
  rcases l with _ | ⟨c, t⟩
  · exact absurd rfl h
  · rfl

theorem base_ne_nil (basePath : List Char)
    (hb : ∀ x ∈ splitSlash basePath, cleanSeg x) : basePath ≠ [] := by
  intro h
  subst h
  exact (hb [] (by simp [splitSlash])).1 rfl

theorem head?_joinSegs_cons (x : List Char) (xs : List (List Char)) (hx : x ≠ []) :
    (joinSegs (x :: xs)).head? = x.head? := by
  rcases xs with _ | ⟨y, ys⟩
  · simp [joinSegs]
  · rw [joinSegs_cons_cons]
    exact List.head?_append_of_ne_nil _ hx

theorem base_head_ne_slash (basePath : List Char)
    (hb : ∀ x ∈ splitSlash basePath, cleanSeg x) : basePath.head? ≠ some '/' := by
  obtain ⟨b0, bs, hsp⟩ := exists_splitSlash basePath
  have hb0 : cleanSeg b0 := hb b0 (by simp [hsp])
  have hbase : basePath = joinSegs (b0 :: bs) := by
    rw [← hsp, joinSegs_splitSlash]
  rw [hbase, head?_joinSegs_cons b0 bs hb0.1]
  rcases b0 with _ | ⟨c, t⟩
  · exact absurd rfl hb0.1
  · intro h
    simp only [List.head?_cons, Option.some.injEq] at h
    exact hb0.2.2.2 (by simp [h])

theorem getLast?_append_slash (a b : List Char) (hbne : b ≠ []) :
    (a ++ '/' :: b).getLast? = b.getLast? := by
  rw [show a ++ '/' :: b = (a ++ ['/']) ++ b by simp]
  exact List.getLast?_append_of_ne_nil _ hbne

theorem getLast?_ne_slash_of_clean (x : List Char) (hx : cleanSeg x) :
    x.getLast? ≠ some '/' := by
  intro h
  exact hx.2.2.2 (List.mem_of_mem_getLast? h)

theorem cons_append_ne_nil (x : List Char) (y : List Char) (hx : x ≠ []) :
    x ++ y ≠ [] := by
  rcases x with _ | ⟨c, t⟩
  · exact absurd rfl hx
  · simp

theorem hasPre_append_self : ∀ p t : List Char, hasPre p (p ++ t) = true := by
  intro p
  induction p with
  | nil => intro t; rfl
  | cons c cs ih => intro t; simp [hasPre, ih]

theorem posixNormalize_eq_rebuild (cs : List Char) (hne : cs ≠ []) :
    posixNormalize cs =
      rebuild (decide (cs.head? = some '/')) (decide (cs.getLast? = some '/'))
        (normSegs (!(decide (cs.head? = some '/'))) [] (splitSlash cs)) := by
  unfold posixNormalize
  rw [if_neg hne]

theorem splitSlash_joined (basePath a2 a3 s : List Char)
    (hna : '/' ∉ a2) (hnp : '/' ∉ a3) :
    splitSlash (basePath ++ '/' :: (a2 ++ '/' :: (a3 ++ '/' :: s)))
      = splitSlash basePath ++ [a2, a3] ++ splitSlash s := by
  rw [splitSlash_append_slash, splitSlash_append_slash, splitSlash_append_slash,
    splitSlash_of_no_slash a2 hna, splitSlash_of_no_slash a3 hnp]
  simp

theorem splitSlash_joined3 (basePath a2 a3 : List Char)
    (hna : '/' ∉ a2) (hnp : '/' ∉ a3) :
    splitSlash (basePath ++ '/' :: (a2 ++ '/' :: a3))
      = splitSlash basePath ++ [a2, a3] := by
  rw [splitSlash_append_slash, splitSlash_append_slash,
    splitSlash_of_no_slash a2 hna, splitSlash_of_no_slash a3 hnp]
  simp

theorem norm_push_step (basePath a2 a3 : List Char) (rest : List (List Char))
    (hb : ∀ x ∈ splitSlash basePath, cleanSeg x)
    (ha : cleanSeg a2) (hp2 : cleanSeg a3) :
    normSegs true [] (splitSlash basePath ++ [a2, a3] ++ rest)
      = normSegs true (a3 :: a2 :: (splitSlash basePath).reverse) rest := by
  have hcl : ∀ x ∈ splitSlash basePath ++ [a2, a3], x ≠ [] ∧ x ≠ ['.'] ∧ x ≠ dd := by
    intro x hx
    rcases List.mem_append.mp hx with h1 | h1
    · have := hb x h1
      exact ⟨this.1, this.2.1, this.2.2.1⟩
    · simp only [List.mem_cons, List.mem_singleton] at h1
      rcases h1 with h1 | h1 | h1
      · subst h1; exact ⟨ha.1, ha.2.1, ha.2.2.1⟩
      · subst h1; exact ⟨hp2.1, hp2.2.1, hp2.2.2.1⟩
      · simp at h1
  have h := normSegs_push_clean true (splitSlash basePath ++ [a2, a3]) rest [] hcl
  simpa using h

/-- Resolution when the sanitized logical path is exactly `..`: the
final join pops the application segment and the resolved path is the
account directory. -/
theorem toSafe_eq_of_safe_dd (basePath : List Char) (u : User) (p : List Char)
    (hb : ∀ x ∈ splitSlash basePath, cleanSeg x)
    (ha : cleanSeg u.account_id) (hp2 : cleanSeg u.app_id)
    (hdd : stripLeadingDotDot (posixNormalize p) = dd) :
    toSafeLocalPath basePath u p = basePath ++ '/' :: u.account_id := by
  have h1 : basePath ≠ [] := base_ne_nil basePath hb
  unfold toSafeLocalPath
  rw [hdd]
  unfold posixJoin
  have hfil : [basePath, u.account_id, u.app_id, dd].filter (fun q => !q.isEmpty)
      = [basePath, u.account_id, u.app_id, dd] := by
    simp [List.filter_cons, isEmpty_false_of_ne_nil _ h1,
      isEmpty_false_of_ne_nil _ ha.1, isEmpty_false_of_ne_nil _ hp2.1,
      isEmpty_false_of_ne_nil _ (show dd ≠ [] by decide)]
  rw [hfil, if_neg (show ([basePath, u.account_id, u.app_id, dd] : List (List Char)) ≠ []
    by simp)]
  have hjoin : joinSegs [basePath, u.account_id, u.app_id, dd]
      = basePath ++ '/' :: (u.account_id ++ '/' :: (u.app_id ++ '/' :: dd)) := by
    simp [joinSegs]
  rw [hjoin]
  have hJne : basePath ++ '/' :: (u.account_id ++ '/' :: (u.app_id ++ '/' :: dd)) ≠ [] :=
    cons_append_ne_nil basePath _ h1
  rw [posixNormalize_eq_rebuild _ hJne]
  have habs : (decide ((basePath ++ '/' :: (u.account_id ++ '/' :: (u.app_id ++ '/' :: dd))).head?
      = some '/')) = false := by
    rw [List.head?_append_of_ne_nil _ h1]
    exact decide_eq_false (base_head_ne_slash basePath hb)
  have htr : (decide ((basePath ++ '/' :: (u.account_id ++ '/' :: (u.app_id ++ '/' :: dd))).getLast?
      = some '/')) = false := by
    rw [getLast?_append_slash _ _ (cons_append_ne_nil u.account_id _ ha.1),
      getLast?_append_slash _ _ (cons_append_ne_nil u.app_id _ hp2.1),
      getLast?_append_slash _ _ (show dd ≠ [] by decide)]
    decide
  rw [habs, htr, Bool.not_false]
  rw [splitSlash_joined basePath _ _ dd ha.2.2.2 hp2.2.2.2,
    splitSlash_of_no_slash dd (by decide),
    norm_push_step basePath _ _ [dd] hb ha hp2]
  rw [normSegs_cons, normStep_dd_cons true _ _ hp2.2.2.1, normSegs_nil]
  have hsegsr : (u.account_id :: (splitSlash basePath).reverse).reverse
      = splitSlash basePath ++ [u.account_id] := by simp
  rw [hsegsr]
  unfold rebuild
  have hjs : joinSegs (splitSlash basePath ++ [u.account_id])
      = basePath ++ '/' :: u.account_id := by
    rw [joinSegs_append _ _ (splitSlash_ne_nil basePath) (by simp), joinSegs_splitSlash]
    rfl
  rw [hjs, if_neg (cons_append_ne_nil basePath _ h1)]
  simp

/-- Resolution when the sanitized logical path is empty: the join drops
it and the resolved path is the tenant root itself. -/
theorem toSafe_eq_of_safe_nil (basePath : List Char) (u : User) (p : List Char)
    (hb : ∀ x ∈ splitSlash basePath, cleanSeg x)
    (ha : cleanSeg u.account_id) (hp2 : cleanSeg u.app_id)
    (hnil : stripLeadingDotDot (posixNormalize p) = []) :
    toSafeLocalPath basePath u p
      = basePath ++ '/' :: (u.account_id ++ '/' :: u.app_id) := by
  have h1 : basePath ≠ [] := base_ne_nil basePath hb
  unfold toSafeLocalPath
  rw [hnil]
  unfold posixJoin
  have hfil : [basePath, u.account_id, u.app_id, []].filter (fun q => !q.isEmpty)
      = [basePath, u.account_id, u.app_id] := by
    simp [List.filter_cons, isEmpty_false_of_ne_nil _ h1,
      isEmpty_false_of_ne_nil _ ha.1, isEmpty_false_of_ne_nil _ hp2.1]
  rw [hfil, if_neg (show ([basePath, u.account_id, u.app_id] : List (List Char)) ≠ []
    by simp)]
  have hjoin : joinSegs [basePath, u.account_id, u.app_id]
      = basePath ++ '/' :: (u.account_id ++ '/' :: u.app_id) := by
    simp [joinSegs]
  rw [hjoin]
  have hJne : basePath ++ '/' :: (u.account_id ++ '/' :: u.app_id) ≠ [] :=
    cons_append_ne_nil basePath _ h1
  rw [posixNormalize_eq_rebuild _ hJne]
  have habs : (decide ((basePath ++ '/' :: (u.account_id ++ '/' :: u.app_id)).head?
      = some '/')) = false := by
    rw [List.head?_append_of_ne_nil _ h1]
    exact decide_eq_false (base_head_ne_slash basePath hb)
  have htr : (decide ((basePath ++ '/' :: (u.account_id ++ '/' :: u.app_id)).getLast?
      = some '/')) = false := by
    rw [getLast?_append_slash _ _ (cons_append_ne_nil u.account_id _ ha.1),
      getLast?_append_slash _ _ hp2.1]
    exact decide_eq_false (getLast?_ne_slash_of_clean u.app_id hp2)
  rw [habs, htr, Bool.not_false]
  rw [splitSlash_joined3 basePath _ _ ha.2.2.2 hp2.2.2.2]
  have hps : splitSlash basePath ++ [u.account_id, u.app_id]
      = splitSlash basePath ++ [u.account_id, u.app_id] ++ [] := by simp
  rw [hps, norm_push_step basePath _ _ [] hb ha hp2, normSegs_nil]
  have hsegsr : (u.app_id :: u.account_id :: (splitSlash basePath).reverse).reverse
      = splitSlash basePath ++ [u.account_id, u.app_id] := by simp
  rw [hsegsr]
  unfold rebuild
  have hjs : joinSegs (splitSlash basePath ++ [u.account_id, u.app_id])
      = basePath ++ '/' :: (u.account_id ++ '/' :: u.app_id) := by
    rw [joinSegs_append _ _ (splitSlash_ne_nil basePath) (by simp), joinSegs_splitSlash]
    rw [show joinSegs [u.account_id, u.app_id] = u.account_id ++ '/' :: u.app_id from by
      simp [joinSegs]]
  rw [hjs, if_neg (cons_append_ne_nil basePath _ h1)]
  simp

/-- Resolution when the sanitized logical path is nonempty and free of
`..` segments: every segment of the tenant prefix is kept and the
sanitized segments are filtered of empty and `.` pieces. -/
theorem toSafe_eq_of_safe_clean (basePath : List Char) (u : User) (p : List Char)
    (hb : ∀ x ∈ splitSlash basePath, cleanSeg x)
    (ha : cleanSeg u.account_id) (hp2 : cleanSeg u.app_id)
    (hne : stripLeadingDotDot (posixNormalize p) ≠ [])
    (hnd : dd ∉ splitSlash (stripLeadingDotDot (posixNormalize p))) :
    toSafeLocalPath basePath u p
      = rebuild false
          (decide ((basePath ++ '/' :: (u.account_id ++ '/' ::
            (u.app_id ++ '/' :: stripLeadingDotDot (posixNormalize p)))).getLast?
              = some '/'))
          (splitSlash basePath ++ [u.account_id, u.app_id]
            ++ (splitSlash (stripLeadingDotDot (posixNormalize p))).filter keepSeg) := by
  have h1 : basePath ≠ [] := base_ne_nil basePath hb
  unfold toSafeLocalPath
  unfold posixJoin
  have hfil : [basePath, u.account_id, u.app_id,
      stripLeadingDotDot (posixNormalize p)].filter (fun q => !q.isEmpty)
      = [basePath, u.account_id, u.app_id, stripLeadingDotDot (posixNormalize p)] := by
    simp [List.filter_cons, isEmpty_false_of_ne_nil _ h1,
      isEmpty_false_of_ne_nil _ ha.1, isEmpty_false_of_ne_nil _ hp2.1,
      isEmpty_false_of_ne_nil _ hne]
  rw [hfil, if_neg (show ([basePath, u.account_id, u.app_id,
    stripLeadingDotDot (posixNormalize p)] : List (List Char)) ≠ [] by simp)]
  have hjoin : joinSegs [basePath, u.account_id, u.app_id,
      stripLeadingDotDot (posixNormalize p)]
      = basePath ++ '/' :: (u.account_id ++ '/' ::
        (u.app_id ++ '/' :: stripLeadingDotDot (posixNormalize p))) := by
    simp [joinSegs]
  rw [hjoin]
  have hJne : basePath ++ '/' :: (u.account_id ++ '/' ::
      (u.app_id ++ '/' :: stripLeadingDotDot (posixNormalize p))) ≠ [] :=
    cons_append_ne_nil basePath _ h1
  rw [posixNormalize_eq_rebuild _ hJne]
  have habs : (decide ((basePath ++ '/' :: (u.account_id ++ '/' ::
      (u.app_id ++ '/' :: stripLeadingDotDot (posixNormalize p)))).head?
      = some '/')) = false := by
    rw [List.head?_append_of_ne_nil _ h1]
    exact decide_eq_false (base_head_ne_slash basePath hb)
  rw [habs, Bool.not_false]
  rw [splitSlash_joined basePath _ _ _ ha.2.2.2 hp2.2.2.2,
    norm_push_step basePath _ _ (splitSlash (stripLeadingDotDot (posixNormalize p)))
      hb ha hp2]
  rw [normSegs_no_dd true _ _ hnd]
  have hsegsr : (u.app_id :: u.account_id :: (splitSlash basePath).reverse).reverse
      = splitSlash basePath ++ [u.account_id, u.app_id] := by simp
  rw [hsegsr]

theorem joinSegs_cons_ne_nil (y : List Char) (ys : List (List Char)) (hy : y ≠ []) :
    joinSegs (y :: ys) ≠ [] := by
  rcases ys with _ | ⟨z, zs⟩
  · simpa [joinSegs] using hy
  · rw [joinSegs_cons_cons]
    exact cons_append_ne_nil y _ hy

theorem getLast?_joinSegs_ne_slash :
    ∀ S : List (List Char), S ≠ [] → (∀ x ∈ S, cleanSeg x) →
      (joinSegs S).getLast? ≠ some '/' := by
  intro S
  induction S with
  | nil => intro h _; exact absurd rfl h
  | cons x rest ih =>
    intro _ hcl
    rcases rest with _ | ⟨y, ys⟩
    · simpa [joinSegs] using getLast?_ne_slash_of_clean x (hcl x (by simp))
    · rw [joinSegs_cons_cons,
        getLast?_append_slash x _ (joinSegs_cons_ne_nil y ys (hcl y (by simp)).1)]
      exact ih (by simp) (fun z hz => hcl z (List.mem_cons_of_mem _ hz))

theorem no_dd_rebuild (tb : Bool) (S : List (List Char))
    (hS : ∀ x ∈ S, x ≠ dd) (hnsl : ∀ x ∈ S, '/' ∉ x)
    (hSne : S ≠ []) (hjne : joinSegs S ≠ []) :
    ∀ seg ∈ splitSlash (rebuild false tb S), seg ≠ dd := by
  unfold rebuild
  rw [if_neg hjne]
  rcases tb with _ | _
  · intro seg hseg
    simp only [Bool.false_eq_true, if_false, List.nil_append, List.append_nil] at hseg
    rw [splitSlash_joinSegs S hSne hnsl] at hseg
    exact hS seg hseg
  · intro seg hseg
    simp only [Bool.false_eq_true, if_false, if_true, List.nil_append] at hseg
    have e : joinSegs S ++ ['/'] = joinSegs S ++ '/' :: ([] : List Char) := rfl
    rw [e, splitSlash_append_slash, splitSlash_joinSegs S hSne hnsl] at hseg
    rcases List.mem_append.mp hseg with h2 | h2
    · exact hS seg h2
    · simp only [splitSlash, List.mem_singleton] at h2
      subst h2
      decide

/-- Containment for the rebuilt path below the tenant prefix: the result
is the tenant root or extends the tenant root with a slash, and no `..`
segment appears. -/
theorem rebuild_containment (basePath a2 a3 : List Char) (tb : Bool)
    (F : List (List Char))
    (hb : ∀ x ∈ splitSlash basePath, cleanSeg x)
    (ha : cleanSeg a2) (hp2 : cleanSeg a3)
    (hF1 : ∀ x ∈ F, x ≠ dd) (hF2 : ∀ x ∈ F, '/' ∉ x) :
    (∀ seg ∈ splitSlash (rebuild false tb (splitSlash basePath ++ [a2, a3] ++ F)),
       seg ≠ dd) ∧
    (rebuild false tb (splitSlash basePath ++ [a2, a3] ++ F)
        = basePath ++ '/' :: (a2 ++ '/' :: a3) ∨
     hasPre (basePath ++ '/' :: (a2 ++ '/' :: (a3 ++ ['/'])))
       (rebuild false tb (splitSlash basePath ++ [a2, a3] ++ F)) = true) := by
  have h1 : basePath ≠ [] := base_ne_nil basePath hb
  have hSnd : ∀ x ∈ splitSlash basePath ++ [a2, a3] ++ F, x ≠ dd := by
    intro x hx
    rcases List.mem_append.mp hx with h2 | h2
    · rcases List.mem_append.mp h2 with h3 | h3
      · exact (hb x h3).2.2.1
      · simp only [List.mem_cons, List.mem_singleton] at h3
        rcases h3 with h3 | h3 | h3
        · subst h3; exact ha.2.2.1
        · subst h3; exact hp2.2.2.1
        · simp at h3
    · exact hF1 x h2
  have hSnsl : ∀ x ∈ splitSlash basePath ++ [a2, a3] ++ F, '/' ∉ x := by
    intro x hx
    rcases List.mem_append.mp hx with h2 | h2
    · rcases List.mem_append.mp h2 with h3 | h3
      · exact (hb x h3).2.2.2
      · simp only [List.mem_cons, List.mem_singleton] at h3
        rcases h3 with h3 | h3 | h3
        · subst h3; exact ha.2.2.2
        · subst h3; exact hp2.2.2.2
        · simp at h3
    · exact hF2 x h2
  have hSne : splitSlash basePath ++ [a2, a3] ++ F ≠ [] := by
    intro hcon
    rw [List.append_assoc] at hcon
    exact splitSlash_ne_nil basePath (List.append_eq_nil.mp hcon).1
  rcases F with _ | ⟨f, fs⟩
  · have hjs : joinSegs (splitSlash basePath ++ [a2, a3] ++ [])
        = basePath ++ '/' :: (a2 ++ '/' :: a3) := by
      rw [List.append_nil,
        joinSegs_append _ _ (splitSlash_ne_nil basePath) (by simp), joinSegs_splitSlash]
      rw [show joinSegs [a2, a3] = a2 ++ '/' :: a3 from by simp [joinSegs]]
    have hjne : joinSegs (splitSlash basePath ++ [a2, a3] ++ []) ≠ [] := by
      rw [hjs]
      exact cons_append_ne_nil basePath _ h1
    refine ⟨no_dd_rebuild tb _ hSnd hSnsl hSne hjne, ?_⟩
    rcases tb with _ | _
    · left
      unfold rebuild
      rw [if_neg hjne, hjs]
      simp
    · right
      unfold rebuild
      rw [if_neg hjne, hjs]
      have hre : ([] : List Char) ++ (basePath ++ '/' :: (a2 ++ '/' :: a3)) ++ ['/']
          = (basePath ++ '/' :: (a2 ++ '/' :: (a3 ++ ['/']))) ++ [] := by simp
      simp only [if_true, Bool.false_eq_true, if_false]
      rw [hre, hasPre_append_self]
  · have hjs : joinSegs (splitSlash basePath ++ [a2, a3] ++ (f :: fs))
        = basePath ++ '/' :: (a2 ++ '/' :: (a3 ++ '/' :: joinSegs (f :: fs))) := by
      rw [List.append_assoc,
        joinSegs_append _ _ (splitSlash_ne_nil basePath) (by simp), joinSegs_splitSlash]
      rw [show ([a2, a3] ++ f :: fs : List (List Char)) = a2 :: a3 :: f :: fs from rfl]
      rw [joinSegs_cons_cons, joinSegs_cons_cons]
    have hjne : joinSegs (splitSlash basePath ++ [a2, a3] ++ (f :: fs)) ≠ [] := by
      rw [hjs]
      exact cons_append_ne_nil basePath _ h1
    refine ⟨no_dd_rebuild tb _ hSnd hSnsl hSne hjne, Or.inr ?_⟩
    unfold rebuild
    rw [if_neg hjne, hjs]
    rcases tb with _ | _
    · simp only [Bool.false_eq_true, if_false, List.nil_append, List.append_nil]
      have hre : basePath ++ '/' :: (a2 ++ '/' :: (a3 ++ '/' :: joinSegs (f :: fs)))
          = (basePath ++ '/' :: (a2 ++ '/' :: (a3 ++ ['/']))) ++ joinSegs (f :: fs) := by
        simp
      rw [hre, hasPre_append_self]
    · simp only [if_true, Bool.false_eq_true, if_false, List.nil_append]
      have hre : basePath ++ '/' :: (a2 ++ '/' :: (a3 ++ '/' :: joinSegs (f :: fs))) ++ ['/']
          = (basePath ++ '/' :: (a2 ++ '/' :: (a3 ++ ['/'])))
            ++ (joinSegs (f :: fs) ++ ['/']) := by
        simp
      rw [hre, hasPre_append_self]

/-- Amended path-safety property: with a wellformed base path and clean
tenant identifiers, every resolved path is free of `..` segments and
lies at or below the tenant root, except that a sanitized logical path
of exactly `..` resolves one level up, to the account directory. -/
theorem toSafeLocalPath_account_containment (basePath : List Char) (u : User)
    (p : List Char)
    (hb : ∀ x ∈ splitSlash basePath, cleanSeg x)
    (ha : cleanSeg u.account_id) (hp2 : cleanSeg u.app_id) :
    (∀ seg ∈ splitSlash (toSafeLocalPath basePath u p), seg ≠ dd) ∧
    (toSafeLocalPath basePath u p = basePath ++ '/' :: u.account_id ∨
     toSafeLocalPath basePath u p = basePath ++ '/' :: (u.account_id ++ '/' :: u.app_id) ∨
     hasPre (basePath ++ '/' :: (u.account_id ++ '/' :: (u.app_id ++ ['/'])))
       (toSafeLocalPath basePath u p) = true) := by
  rcases safe_cases p with hdd | hnd
  · have he := toSafe_eq_of_safe_dd basePath u p hb ha hp2 hdd
    rw [he]
    constructor
    · rw [splitSlash_append_slash, splitSlash_of_no_slash u.account_id ha.2.2.2]
      intro seg hseg
      rcases List.mem_append.mp hseg with h2 | h2
      · exact (hb seg h2).2.2.1
      · simp only [List.mem_singleton] at h2
        subst h2
        exact ha.2.2.1
    · exact Or.inl rfl
  · by_cases hz : stripLeadingDotDot (posixNormalize p) = []
    · have he := toSafe_eq_of_safe_nil basePath u p hb ha hp2 hz
      rw [he]
      constructor
      · rw [splitSlash_joined3 basePath _ _ ha.2.2.2 hp2.2.2.2]
        intro seg hseg
        rcases List.mem_append.mp hseg with h2 | h2
        · exact (hb seg h2).2.2.1
        · simp only [List.mem_cons, List.mem_singleton] at h2
          rcases h2 with h2 | h2 | h2
          · subst h2; exact ha.2.2.1
          · subst h2; exact hp2.2.2.1
          · simp at h2
      · exact Or.inr (Or.inl rfl)
    · have he := toSafe_eq_of_safe_clean basePath u p hb ha hp2 hz hnd
      have hF1 : ∀ x ∈ (splitSlash (stripLeadingDotDot (posixNormalize p))).filter keepSeg,
          x ≠ dd := by
        intro x hx hxdd
        subst hxdd
        exact hnd (List.mem_of_mem_filter hx)
      have hF2 : ∀ x ∈ (splitSlash (stripLeadingDotDot (posixNormalize p))).filter keepSeg,
          '/' ∉ x := by
        intro x hx
        exact no_slash_of_mem_splitSlash _ x (List.mem_of_mem_filter hx)
      have hc := rebuild_containment basePath u.account_id u.app_id
        (decide ((basePath ++ '/' :: (u.account_id ++ '/' ::
          (u.app_id ++ '/' :: stripLeadingDotDot (posixNormalize p)))).getLast?
            = some '/'))
        ((splitSlash (stripLeadingDotDot (posixNormalize p))).filter keepSeg)
        hb ha hp2 hF1 hF2
      rw [he]
      refine ⟨hc.1, ?_⟩
      rcases hc.2 with h2 | h2
      · exact Or.inr (Or.inl h2)
      · exact Or.inr (Or.inr h2)

/-- Amended resolved-path shape: with a wellformed base path, clean
tenant identifiers, and a sanitized logical path consisting of clean
segments, resolution appends the sanitized path verbatim below
`basePath/account_id/app_id` — with no shard prefix. -/
theorem toSafeLocalPath_shape (basePath : List Char) (u : User) (p : List Char)
    (hb : ∀ x ∈ splitSlash basePath, cleanSeg x)
    (ha : cleanSeg u.account_id) (hp2 : cleanSeg u.app_id)
    (hclean : ∀ x ∈ splitSlash (stripLeadingDotDot (posixNormalize p)), cleanSeg x) :
    toSafeLocalPath basePath u p
      = basePath ++ '/' :: (u.account_id ++ '/' :: (u.app_id ++ '/' ::
          stripLeadingDotDot (posixNormalize p))) := by
  have hne : stripLeadingDotDot (posixNormalize p) ≠ [] := by
    intro h
    exact (hclean [] (by simp [h, splitSlash])).1 rfl
  have hnd : dd ∉ splitSlash (stripLeadingDotDot (posixNormalize p)) :=
    fun hm => (hclean dd hm).2.2.1 rfl
  have he := toSafe_eq_of_safe_clean basePath u p hb ha hp2 hne hnd
  rw [he]
  have hfil : (splitSlash (stripLeadingDotDot (posixNormalize p))).filter keepSeg
      = splitSlash (stripLeadingDotDot (posixNormalize p)) := by
    apply List.filter_eq_self.mpr
    intro x hx
    simp [keepSeg, (hclean x hx).1, (hclean x hx).2.1]
  rw [hfil]
  have hsafe_last : (stripLeadingDotDot (posixNormalize p)).getLast? ≠ some '/' := by
    rw [show stripLeadingDotDot (posixNormalize p)
        = joinSegs (splitSlash (stripLeadingDotDot (posixNormalize p))) from
      (joinSegs_splitSlash _).symm]
    exact getLast?_joinSegs_ne_slash _ (splitSlash_ne_nil _) hclean
  have h1 : basePath ≠ [] := base_ne_nil basePath hb
  have htr : (decide ((basePath ++ '/' :: (u.account_id ++ '/' ::
      (u.app_id ++ '/' :: stripLeadingDotDot (posixNormalize p)))).getLast?
        = some '/')) = false := by
    rw [getLast?_append_slash _ _ (cons_append_ne_nil u.account_id _ ha.1),
      getLast?_append_slash _ _ (cons_append_ne_nil u.app_id _ hp2.1),
      getLast?_append_slash _ _ hne]
    exact decide_eq_false hsafe_last
  rw [htr]
  obtain ⟨f, fs, hsp⟩ := exists_splitSlash (stripLeadingDotDot (posixNormalize p))
  rw [hsp]
  have hjs : joinSegs (splitSlash basePath ++ [u.account_id, u.app_id] ++ (f :: fs))
      = basePath ++ '/' :: (u.account_id ++ '/' :: (u.app_id ++ '/' ::
          joinSegs (f :: fs))) := by
    rw [List.append_assoc,
      joinSegs_append _ _ (splitSlash_ne_nil basePath) (by simp), joinSegs_splitSlash]
    rw [show ([u.account_id, u.app_id] ++ f :: fs : List (List Char))
        = u.account_id :: u.app_id :: f :: fs from rfl]
    rw [joinSegs_cons_cons, joinSegs_cons_cons]
  have hjf : joinSegs (f :: fs) = stripLeadingDotDot (posixNormalize p) := by
    rw [← hsp, joinSegs_splitSlash]
  have hjne : joinSegs (splitSlash basePath ++ [u.account_id, u.app_id] ++ (f :: fs))
      ≠ [] := by
    rw [hjs]
    exact cons_append_ne_nil basePath _ h1
  unfold rebuild
  rw [if_neg hjne, hjs, hjf]
  simp

/-! Claim theorems. -/

/-- C1 (counterexample): the logical path `..` survives sanitization —
normalization leaves it unchanged and the strip only removes `../` or
`..\` units — so the final join resolves it to the account directory
`base/AB12CD34EF5678`, lexically outside the tenant subtree below
`base/AB12CD34EF5678/app1/`. -/
theorem toSafeLocalPath_dotdot_escapes_tenant :
    toSafeLocalPath "base".data ⟨"AB12CD34EF5678".data, "app1".data⟩ "..".data
        = "base/AB12CD34EF5678".data ∧
      hasPre "base/AB12CD34EF5678/app1/".data
        (toSafeLocalPath "base".data ⟨"AB12CD34EF5678".data, "app1".data⟩ "..".data)
        = false ∧
      (toSafeLocalPath "base".data ⟨"AB12CD34EF5678".data, "app1".data⟩ "..".data
        = "base/AB12CD34EF5678/app1".data) = False := by
  refine ⟨by decide, by decide, by decide⟩

/-- C1 (amended): for every tenant with clean identifiers, a wellformed
base path and every logical path, the resolved path contains no `..`
segment and lies at or below the tenant root `basePath/account_id/app_id`
— except that a logical path sanitizing to exactly `..` resolves one
level up, to the account directory `basePath/account_id`. -/
theorem c1_containment (basePath : List Char) (u : User) (p : List Char)
    (hb : ∀ x ∈ splitSlash basePath, cleanSeg x)
    (ha : cleanSeg u.account_id) (hp2 : cleanSeg u.app_id) :
    (∀ seg ∈ splitSlash (toSafeLocalPath basePath u p), seg ≠ dd) ∧
    (toSafeLocalPath basePath u p = basePath ++ '/' :: u.account_id ∨
     toSafeLocalPath basePath u p
        = basePath ++ '/' :: (u.account_id ++ '/' :: u.app_id) ∨
     hasPre (basePath ++ '/' :: (u.account_id ++ '/' :: (u.app_id ++ ['/'])))
       (toSafeLocalPath basePath u p) = true) :=
  toSafeLocalPath_account_containment basePath u p hb ha hp2

/-- C1 (witness): concrete tenant and the spec's traversal example stay
inside the tenant subtree. -/
theorem c1_containment_witness :
    hasPre "base/AB12CD34EF5678/app1/".data
      (toSafeLocalPath "base".data ⟨"AB12CD34EF5678".data, "app1".data⟩
        "../../../etc/passwd".data) = true :=
  (((c1_containment "base".data ⟨"AB12CD34EF5678".data, "app1".data⟩
      "../../../etc/passwd".data (by decide) (by decide)
      (by decide)).2).resolve_left (by decide)).resolve_left (by decide)

/-- C2 (counterexample): resolution does not shard the account
identifier — `notes/todo.txt` for account `AB12CD34EF5678` resolves to
`base/AB12CD34EF5678/app1/notes/todo.txt`, not to the sharded
`base/AB/12/CD/AB12CD34EF5678/app1/notes/todo.txt`. -/
theorem toSafeLocalPath_no_shard_prefix :
    toSafeLocalPath "base".data ⟨"AB12CD34EF5678".data, "app1".data⟩
        "notes/todo.txt".data
        = "base/AB12CD34EF5678/app1/notes/todo.txt".data ∧
      (toSafeLocalPath "base".data ⟨"AB12CD34EF5678".data, "app1".data⟩
        "notes/todo.txt".data
        = "base/AB/12/CD/AB12CD34EF5678/app1/notes/todo.txt".data) = False := by
  refine ⟨by decide, by decide⟩

/-- C2 (amended): the resolved backend path has the shape
`basePath/account_id/app_id/<sanitized logical path>` with no shard
prefix, whenever the sanitized logical path consists of clean
segments. -/
theorem c2_shape (basePath : List Char) (u : User) (p : List Char)
    (hb : ∀ x ∈ splitSlash basePath, cleanSeg x)
    (ha : cleanSeg u.account_id) (hp2 : cleanSeg u.app_id)
    (hclean : ∀ x ∈ splitSlash (stripLeadingDotDot (posixNormalize p)), cleanSeg x) :
    toSafeLocalPath basePath u p
      = basePath ++ '/' :: (u.account_id ++ '/' :: (u.app_id ++ '/' ::
          stripLeadingDotDot (posixNormalize p))) :=
  toSafeLocalPath_shape basePath u p hb ha hp2 hclean

/-- C2 (witness): the spec's end-to-end example, resolved without a
shard prefix. -/
theorem c2_shape_witness :
    toSafeLocalPath "base".data ⟨"AB12CD34EF5678".data, "app1".data⟩
      "notes/todo.txt".data = "base/AB12CD34EF5678/app1/notes/todo.txt".data :=
  (c2_shape "base".data ⟨"AB12CD34EF5678".data, "app1".data⟩ "notes/todo.txt".data
    (by decide) (by decide) (by decide) (by decide)).trans (by decide)

/-- C3 (counterexample): an unlink failure after a successful link is
reported through the same plain error callback as a link failure — the
two outcomes are equal for the same backend error, so no distinct
`PartialCompoundFailure` is surfaced. -/
theorem moveObject_unlink_error_indistinguishable :
    (moveObject "base".data ⟨"A".data, "P".data⟩ "f".data "g".data
        ⟨.ok (), .ok (), .error ⟨"X".data⟩⟩).2
      = (moveObject "base".data ⟨"A".data, "P".data⟩ "f".data "g".data
        ⟨.ok (), .error ⟨"X".data⟩, .ok ()⟩).2 ∧
    (moveObject "base".data ⟨"A".data, "P".data⟩ "f".data "g".data
        ⟨.ok (), .ok (), .error ⟨"X".data⟩⟩).2
      = OpOutcome.failure ⟨"X".data⟩ :=
  ⟨rfl, rfl⟩

/-- C3 (amended): when the link step succeeds and the unlink step
fails, the destination copy is left in place — the only calls issued
are the destination-parent `mkdirp`, the `ln`, and the failing `unlink`
of the source, with no rollback — and the unlink error is propagated
verbatim through the ordinary error callback, indistinguishable from an
error raised by a step before the link. -/
theorem moveObject_unlink_failure_spec (basePath : List Char) (u : User)
    (filename newFilename : List Char) (e : MantaError) :
    moveObject basePath u filename newFilename ⟨.ok (), .ok (), .error e⟩
      = ([.mkdirp (posixDirname (toSafeLocalPath basePath u newFilename)),
          .ln (toSafeLocalPath basePath u filename)
            (toSafeLocalPath basePath u newFilename),
          .unlink (toSafeLocalPath basePath u filename)],
         .failure e) :=
  rfl

/-- C4 (counterexample): a backend `ls` failure with a non-not-found
code on the tenant root is silently converted into an empty listing
rather than propagated. -/
theorem listDirectory_root_error_swallowed :
    (listDirectory "base".data ⟨"A".data, "P".data⟩ []
        (.failure ⟨"EPERM".data⟩)).2 = LsOutcome.success [] ∧
      ((listDirectory "base".data ⟨"A".data, "P".data⟩ []
        (.failure ⟨"EPERM".data⟩)).2 = LsOutcome.failure ⟨"EPERM".data⟩) = False := by
  refine ⟨by decide, by decide⟩

/-- C4 (amended): a non-not-found `ls` error is propagated when the
requested path is non-root, and a mid-stream error is propagated on any
path, but on the tenant root an initial `ls` error — of any
classification — is converted into an empty listing. -/
theorem listDirectory_error_propagation (basePath : List Char) (u : User)
    (dirpath : List Char) (e : MantaError) (evs : List LsEvent) :
    (dirpath ≠ [] → e.code ≠ "NOTFOUND".data →
      (listDirectory basePath u dirpath (.failure e)).2 = .failure e) ∧
    (listDirectory basePath u dirpath (.events evs (some e))).2 = .failure e ∧
    (listDirectory basePath u [] (.failure e)).2 = .success [] := by
  refine ⟨?_, rfl, ?_⟩
  · intro h1 h2
    simp [listDirectory, h1, h2]
  · simp [listDirectory]

/-- C4 (witness): a non-root `EPERM` failure is propagated. -/
theorem listDirectory_error_propagation_witness :
    (listDirectory "base".data ⟨"A".data, "P".data⟩ "x".data
      (.failure ⟨"EPERM".data⟩)).2 = LsOutcome.failure ⟨"EPERM".data⟩ :=
  (listDirectory_error_propagation "base".data ⟨"A".data, "P".data⟩ "x".data
    ⟨"EPERM".data⟩ []).1 (by decide) (by decide)

/-- C5 (confirmed): listing the tenant root when the backend reports
`NOTFOUND` completes successfully with an empty collection — the single
effective callback carries no error. -/
theorem listDirectory_root_notfound_empty (basePath : List Char) (u : User)
    (e : MantaError) (hnf : e.code = "NOTFOUND".data) :
    listDirectory basePath u [] (.failure e)
      = ([.ls (toSafeLocalPath basePath u [])], .success []) := by
  simp [listDirectory, hnf]

/-- C5 (witness): a fresh tenant's root listing is empty, not an
error. -/
theorem listDirectory_root_notfound_empty_witness :
    listDirectory "base".data ⟨"A".data, "P".data⟩ []
      (.failure ⟨"NOTFOUND".data⟩)
      = ([.ls "base/A/P".data], .success []) :=
  (listDirectory_root_notfound_empty "base".data ⟨"A".data, "P".data⟩
    ⟨"NOTFOUND".data⟩ rfl).trans (by decide)

/-- C6 (confirmed): the first `getObject` callback carries a null
result for a `ResourceNotFound` error, the backend error itself for any
other error, and the stream on success. -/
theorem getObject_outcome_mapping (basePath : List Char) (u : User)
    (filename : List Char) (e : MantaError) (s : ByteStream) :
    (getObject basePath u filename (.error e)).2.head?
        = some (if e.code = "ResourceNotFound".data then GetCb.nullResult
            else GetCb.failure e) ∧
    (getObject basePath u filename (.ok s)).2 = [GetCb.streamResult s] := by
  constructor
  · by_cases h : e.code = "ResourceNotFound".data <;> simp [getObject, h]
  · rfl

/-- C7 (confirmed): `deleteObject` stats first — a stat failure is
propagated with no unlink issued; an unlink failure after a successful
stat propagates the unlink error; on success the entry's kind comes
from the stat's `extension` and its name is the caller-supplied
path. -/
theorem deleteObject_spec (basePath : List Char) (u : User) (filename : List Char)
    (e e2 : MantaError) (inf : MantaInfo) (ur : Except MantaError Unit) :
    deleteObject basePath u filename ⟨.error e, ur⟩
        = ([.info (toSafeLocalPath basePath u filename)], .failure e) ∧
    deleteObject basePath u filename ⟨.ok inf, .error e2⟩
        = ([.info (toSafeLocalPath basePath u filename),
            .unlink (toSafeLocalPath basePath u filename)], .failure e2) ∧
    deleteObject basePath u filename ⟨.ok inf, .ok ()⟩
        = ([.info (toSafeLocalPath basePath u filename),
            .unlink (toSafeLocalPath basePath u filename)],
           .success ⟨filename,
             if inf.extension = "directory".data then "folder".data else "file".data,
             none⟩) := by
  refine ⟨rfl, rfl, ?_⟩
  by_cases h : inf.extension = "directory".data <;>
    simp [deleteObject, getEntryDetails, h]

/-- C8 (confirmed): `startMultipartUpload` always issues
`createUpload` on the fixed staging path `join(basePath, "temp0000")`
with the configured account — the path depends on neither the tenant
nor the individual call. -/
theorem startMultipartUpload_fixed_path (basePath paramsUser : List Char)
    (u u2 : User) (r r2 : Except MantaError (List Char)) :
    (startMultipartUpload basePath paramsUser u r).1
        = MantaCall.createUpload (posixJoin [basePath, "temp0000".data]) paramsUser ∧
    (startMultipartUpload basePath paramsUser u r).1
        = (startMultipartUpload basePath paramsUser u2 r2).1 :=
  ⟨rfl, rfl⟩

/-- C9 (confirmed): on any backend `get` error the callback fires
twice — once from the error branch (null result for not-found, the
error otherwise) and then unconditionally again with a null error and
an undefined stream. -/
theorem getObject_double_callback (basePath : List Char) (u : User)
    (filename : List Char) (e : MantaError) :
    (getObject basePath u filename (.error e)).2
        = [if e.code = "ResourceNotFound".data then GetCb.nullResult
            else GetCb.failure e, GetCb.undefinedResult] ∧
    (getObject basePath u filename (.error e)).2.length = 2 := by
  constructor
  · by_cases h : e.code = "ResourceNotFound".data <;> simp [getObject, h]
  · by_cases h : e.code = "ResourceNotFound".data <;> simp [getObject, h]

/-- C10 (confirmed): when the link step fails, `moveObject` issues only
the destination-parent `mkdirp` and the failing `ln` — no unlink is
ever issued, so the source object is untouched — and the link error is
reported. -/
theorem moveObject_link_failure_no_unlink (basePath : List Char) (u : User)
    (filename newFilename : List Char) (e : MantaError)
    (ur : Except MantaError Unit) :
    moveObject basePath u filename newFilename ⟨.ok (), .error e, ur⟩
      = ([.mkdirp (posixDirname (toSafeLocalPath basePath u newFilename)),
          .ln (toSafeLocalPath basePath u filename)
            (toSafeLocalPath basePath u newFilename)],
         .failure e) :=
  rfl

end MantaDriver
